import Mathlib

/-!
Verification of the retrowin32 core (fobrs/retrowin32) against its
natural-language specification.

The development shallowly embeds the relevant Rust sources:
  * `src/x86/src/ops/math.rs`   — width-generic arithmetic/flag helpers;
  * `src/x86/src/registers.rs`  — the `Flags` bits used by those helpers;
  * `src/win32/src/x86.rs`      — the interpreter (`X86::run`, `step`,
    `push`, `pop`, `addr`) over a flat guest memory;
  * `src/win32/src/windows.rs`  — the mapping list (`add_mapping`, `alloc`)
    and the stack-setup phase of `load_exe`.

Conventions of the embedding:
  * machine integers are `Nat` with explicit reduction `% 2^w`; plain Rust
    `+`/`-` on `u32` is modelled with wrapping semantics (`% 2^32`), which is
    the behaviour of the shipped (release-profile) program;
  * operations that can hit a Rust `assert!`, an out-of-bounds slice index, a
    division by zero, or an explicit `bail!` return `Option`/`Except`
    (`none`/`.error` marks the abnormal termination of the operation);
  * guest memory is a `List Nat` of bytes; every index panics (→ `none`)
    when out of bounds, exactly like `Vec<u8>` indexing.
-/

namespace Retrowin32

/-- Size of a `u32` value space, `2^32`. -/
def U32MOD : Nat := 4294967296

/-- Wrapping 32-bit addition, Rust `u32::wrapping_add` / release-mode `+`. -/
def wadd32 (a b : Nat) : Nat := (a + b) % U32MOD

/-- Wrapping 32-bit subtraction, Rust `u32::wrapping_sub` / release-mode `-`. -/
def wsub32 (a b : Nat) : Nat := (a + (U32MOD - b % U32MOD)) % U32MOD

/-! ## Flags (src/x86/src/registers.rs)

Only the five modelled eflags bits: CF, ZF, SF, DF, OF. -/

structure Flags where
  cf : Bool
  zf : Bool
  sf : Bool
  df : Bool
  of : Bool
deriving DecidableEq

/-- The all-clear flags value, `Flags::empty()`. -/
def Flags.empty : Flags := ⟨false, false, false, false, false⟩

/-! ## Width-generic arithmetic helpers (src/x86/src/ops/math.rs)

The Rust code is generic over `I: Int` with `I::bits() ∈ {8,16,32}`.  The
embedding takes the width `w` as an explicit first argument; operands are
`Nat` values below `2^w`. -/

/-- Bitwise complement of a `w`-bit value, Rust `!y` on `uW`. -/
def bnot (w y : Nat) : Nat := y ^^^ (2 ^ w - 1)

/-- The `add<I>` helper of math.rs: `overflowing_add`, then CF/ZF/SF/OF.
`overflowing_add` yields `((x + y) % 2^w, 2^w ≤ x + y)`; OF is the code's
`!(((x ^ !y) & (x ^ result)) >> (I::bits() - 1)).is_zero()`. -/
def addOp (w : Nat) (fl : Flags) (x y : Nat) : Flags × Nat :=
  let result := (x + y) % 2 ^ w
  let carry := decide (2 ^ w ≤ x + y)
  let zf := decide (result = 0)
  let sf := decide (result >>> (w - 1) = 1)
  let ofl := decide (((x ^^^ bnot w y) &&& (x ^^^ result)) >>> (w - 1) ≠ 0)
  ({ fl with cf := carry, zf := zf, sf := sf, of := ofl }, result)

/-- The `sub<I>` helper of math.rs: `overflowing_sub`, then CF/ZF/SF/OF.
`overflowing_sub` on `uW` borrows exactly when `x < y`. -/
def subOp (w : Nat) (fl : Flags) (x y : Nat) : Flags × Nat :=
  let result := (x + (2 ^ w - y % 2 ^ w)) % 2 ^ w
  let carry := decide (x < y)
  let zf := decide (result = 0)
  let sf := decide (result >>> (w - 1) = 1)
  let ofl := decide (((x ^^^ y) &&& (x ^^^ result)) >>> (w - 1) ≠ 0)
  ({ fl with cf := carry, zf := zf, sf := sf, of := ofl }, result)

/-- The `shl<I>` helper of math.rs.  A zero count returns the input with the
flags untouched.  Otherwise CF is the bit shifted out (`x >> (bits - y) & 1`),
the value is `x.wrapping_shl(y)` — which masks the count to the type width,
i.e. shifts by `y % w` for `w ∈ {8,16,32}` — and SF/OF/ZF are set as coded.
Faithful for counts `y ≤ w` (larger counts hit a debug-mode underflow in
`I::bits() - y`, which no claim exercises). -/
def shlOp (w : Nat) (fl : Flags) (x y : Nat) : Flags × Nat :=
  if y = 0 then (fl, x)
  else
    let cf := decide ((x >>> (w - y)) &&& 1 = 1)
    let val := (x <<< (y % w)) % 2 ^ w
    let sf := decide (val >>> (w - 1) = 1)
    let ofl := (decide (x >>> (w - 1) = 1)).xor (decide ((x >>> (w - 2)) &&& 1 = 1))
    let zf := decide (val = 0)
    ({ fl with cf := cf, sf := sf, of := ofl, zf := zf }, val)

/-- Outcome type of one interpreter step.  Modelled from the spec: the
`StepResult` error kinds of §7 are declared outside src/ in this snapshot;
`panic` stands for an uncaught Rust panic (which aborts rather than being
reported as a recoverable error value). -/
inductive StepError where
  | unimplementedInstruction : StepError
  | unsupportedPrefix : StepError
  | divideByZero : StepError
  | badMemoryAccess : StepError
  | panic : StepError
deriving DecidableEq

/-- `div_rm32` of math.rs: unsigned `EDX:EAX / rm32`.  The Rust code divides
directly with `/` and `%`; a zero divisor is an uncaught panic. -/
def divRm32 (edx eax y : Nat) : Except StepError (Nat × Nat) :=
  if y = 0 then .error .panic
  else
    let x := (edx <<< 32) ||| eax
    .ok ((x / y) % U32MOD, (x % y) % U32MOD)

/-- A `u64` bit pattern read as an `i64` (Rust `as i64`). -/
def toI64 (n : Nat) : Int := if n < 2 ^ 63 then (n : Int) else (n : Int) - 2 ^ 64

/-- A `u32` bit pattern read as an `i32` widened to `i64` (Rust `as i32 as i64`). -/
def toI32 (n : Nat) : Int := if n < 2 ^ 31 then (n : Int) else (n : Int) - 2 ^ 32

/-- Low 32 bits of an integer (Rust `as i32 as u32` on an `i64` result). -/
def lo32 (z : Int) : Nat := (z % (4294967296 : Int)).toNat

/-- `idiv_rm32` of math.rs: signed `EDX:EAX / rm32` with truncating division.
A zero divisor, or the overflowing `i64::MIN / -1`, is an uncaught panic. -/
def idivRm32 (edx eax y : Nat) : Except StepError (Nat × Nat) :=
  let x := toI64 ((edx <<< 32) ||| eax)
  let yi := toI32 y
  if yi = 0 then .error .panic
  else if x = -(2 ^ 63) ∧ yi = -1 then .error .panic
  else .ok (lo32 (Int.tdiv x yi), lo32 (Int.tmod x yi))

/-! ### Bit-level helper lemmas -/

lemma shiftRight_pred_lt_two {w r : Nat} (hw : 1 ≤ w) (hr : r < 2 ^ w) :
    r >>> (w - 1) < 2 := by
  rw [Nat.shiftRight_eq_div_pow]
  apply Nat.div_lt_of_lt_mul
  have hexp : w - 1 + 1 = w := by omega
  calc r < 2 ^ w := hr
    _ = 2 ^ (w - 1) * 2 := by rw [← pow_succ, hexp]

lemma testBit_pred_eq_decide {w r : Nat} (hw : 1 ≤ w) (hr : r < 2 ^ w) :
    r.testBit (w - 1) = decide (r >>> (w - 1) = 1) := by
  have h2 : r >>> (w - 1) < 2 := shiftRight_pred_lt_two hw hr
  rw [Nat.testBit_to_div_mod, ← Nat.shiftRight_eq_div_pow]
  rw [decide_eq_decide]
  generalize r >>> (w - 1) = t at h2 ⊢
  omega

/-- C1 helper: carry out of bit `w-1` of a sum of two `w`-bit values is bit
`w` of the mathematical sum. -/
lemma carry_out_eq_testBit {w x y : Nat} (hx : x < 2 ^ w) (hy : y < 2 ^ w) :
    (x + y).testBit w = decide (2 ^ w ≤ x + y) := by
  have hlt : (x + y) / 2 ^ w < 2 := by
    apply Nat.div_lt_of_lt_mul
    omega
  have hpos : 0 < 2 ^ w := Nat.pos_pow_of_pos w (by omega)
  have hiff : 1 ≤ (x + y) / 2 ^ w ↔ 2 ^ w ≤ x + y := Nat.one_le_div_iff hpos
  rw [Nat.testBit_to_div_mod, decide_eq_decide]
  generalize (x + y) / 2 ^ w = t at hlt hiff
  omega

/--
C1.  The generic `add` helper of math.rs, at each width `W ∈ {8,16,32}` and
for all `w`-bit operands, returns `x + y` modulo `2^W` and sets
CF = unsigned overflow (carry out of bit `W-1`, i.e. bit `W` of the true
sum), ZF = (result = 0), SF = bit `W-1` of the result, and
OF = `((x ^ ¬y) & (x ^ result)) >> (W-1)`.
-/
theorem addOp_add_flags (w x y : Nat) (fl : Flags)
    (hw : w = 8 ∨ w = 16 ∨ w = 32) (hx : x < 2 ^ w) (hy : y < 2 ^ w) :
    (addOp w fl x y).2 = (x + y) % 2 ^ w ∧
    (addOp w fl x y).1.cf = (x + y).testBit w ∧
    (addOp w fl x y).1.zf = decide ((x + y) % 2 ^ w = 0) ∧
    (addOp w fl x y).1.sf = ((x + y) % 2 ^ w).testBit (w - 1) ∧
    (addOp w fl x y).1.of =
      decide ((((x ^^^ (y ^^^ (2 ^ w - 1))) &&& (x ^^^ (x + y) % 2 ^ w)) >>> (w - 1)) = 1) := by
  have hw1 : 1 ≤ w := by rcases hw with rfl | rfl | rfl <;> omega
  have hpos : 0 < 2 ^ w := Nat.pos_pow_of_pos w (by omega)
  have hres : (x + y) % 2 ^ w < 2 ^ w := Nat.mod_lt _ hpos
  refine ⟨rfl, ?_, rfl, ?_, ?_⟩
  · rw [carry_out_eq_testBit hx hy]
    rfl
  · simp only [addOp]
    rw [testBit_pred_eq_decide hw1 hres]
  · simp only [addOp, bnot]
    have hxny : x ^^^ (y ^^^ (2 ^ w - 1)) < 2 ^ w :=
      Nat.xor_lt_two_pow hx (Nat.xor_lt_two_pow hy (by omega))
    have hand : (x ^^^ (y ^^^ (2 ^ w - 1))) &&& (x ^^^ (x + y) % 2 ^ w) < 2 ^ w := by
      calc (x ^^^ (y ^^^ (2 ^ w - 1))) &&& (x ^^^ (x + y) % 2 ^ w)
          ≤ x ^^^ (y ^^^ (2 ^ w - 1)) := Nat.and_le_left
      _ < 2 ^ w := hxny
    have h2 : ((x ^^^ (y ^^^ (2 ^ w - 1))) &&& (x ^^^ (x + y) % 2 ^ w)) >>> (w - 1) < 2 :=
      shiftRight_pred_lt_two hw1 hand
    rw [decide_eq_decide]
    generalize ((x ^^^ (y ^^^ (2 ^ w - 1))) &&& (x ^^^ (x + y) % 2 ^ w)) >>> (w - 1) = t at h2 ⊢
    omega

/-- C1 witness: the theorem instantiated at `W = 32`, `x = 0x80000000`,
`y = 0x80000001` (the spec's own ADD scenario: result 1, CF = 1, OF = 1). -/
theorem addOp_add_flags_witness :
    ((2147483648 : Nat) < 2 ^ 32 ∧ (2147483649 : Nat) < 2 ^ 32) ∧
    ((addOp 32 Flags.empty 2147483648 2147483649).2 = (2147483648 + 2147483649) % 2 ^ 32 ∧
    (addOp 32 Flags.empty 2147483648 2147483649).1.cf = (2147483648 + 2147483649).testBit 32 ∧
    (addOp 32 Flags.empty 2147483648 2147483649).1.zf =
      decide ((2147483648 + 2147483649) % 2 ^ 32 = 0) ∧
    (addOp 32 Flags.empty 2147483648 2147483649).1.sf =
      ((2147483648 + 2147483649) % 2 ^ 32).testBit (32 - 1) ∧
    (addOp 32 Flags.empty 2147483648 2147483649).1.of =
      decide ((((2147483648 ^^^ (2147483649 ^^^ (2 ^ 32 - 1))) &&&
        (2147483648 ^^^ (2147483648 + 2147483649) % 2 ^ 32)) >>> (32 - 1)) = 1)) :=
  ⟨⟨by decide, by decide⟩,
    addOp_add_flags 32 2147483648 2147483649 Flags.empty (Or.inr (Or.inr rfl))
      (by decide) (by decide)⟩

/--
C9 counterexample: the claim states `shl` with count 32 on a 32-bit operand
produces result 0, but `wrapping_shl` masks the count to `32 % 32 = 0`, so
the input (here 1) comes back unchanged: the result is 1, not 0.
-/
theorem shlOp_count32_counterexample :
    (shlOp 32 Flags.empty 1 32).2 = 1 ∧ (shlOp 32 Flags.empty 1 32).2 ≠ 0 := by
  constructor
  · decide
  · decide

/--
C9 amended: `shl` with shift count 32 on a 32-bit operand returns the operand
unchanged (the count is masked to 0 by `wrapping_shl`) and sets CF to the low
bit of the input.
-/
theorem shlOp_count32 (x : Nat) (fl : Flags) (hx : x < 2 ^ 32) :
    (shlOp 32 fl x 32).2 = x ∧ (shlOp 32 fl x 32).1.cf = x.testBit 0 := by
  constructor
  · simp only [shlOp]
    norm_num [Nat.mod_eq_of_lt hx]
    omega
  · simp only [shlOp]
    norm_num [Nat.and_one_is_mod, Nat.testBit_to_div_mod]

/-- C9 witness: the amended theorem at `x = 5`. -/
theorem shlOp_count32_witness :
    (5 : Nat) < 2 ^ 32 ∧ ((shlOp 32 Flags.empty 5 32).2 = 5 ∧
      (shlOp 32 Flags.empty 5 32).1.cf = Nat.testBit 5 0) :=
  ⟨by decide, shlOp_count32 5 Flags.empty (by decide)⟩

/--
C8 counterexample: at `edx = 1`, `eax = 2`, divisor 0, `div_rm32` terminates
in an uncaught Rust panic — it does not report the `DivideByZero` error value
the claim promises to the driver.
-/
theorem divRm32_zero_counterexample :
    divRm32 1 2 0 = .error .panic ∧ StepError.panic ≠ StepError.divideByZero := by
  constructor
  · rfl
  · decide

/--
C8 amended: for every step in which the divisor operand of `div` or `idiv`
is zero, the division panics (the step aborts with no result); no
`DivideByZero` error value is produced for the driver.
-/
theorem divRm32_zero_panics (edx eax y : Nat) (hy : y = 0) :
    divRm32 edx eax y = .error .panic ∧ idivRm32 edx eax y = .error .panic := by
  subst hy
  constructor
  · rfl
  · rfl

/-- C8 witness: the amended theorem at `edx = 1`, `eax = 2`, divisor 0. -/
theorem divRm32_zero_panics_witness :
    (0 : Nat) = 0 ∧ (divRm32 1 2 0 = .error .panic ∧ idivRm32 1 2 0 = .error .panic) :=
  ⟨rfl, divRm32_zero_panics 1 2 0 rfl⟩

/-! ## The interpreter of src/win32/src/x86.rs

This early version of the `X86` machine has a register file without flags
(`Registers` in x86.rs), a flat byte memory, a PE base address, and the
uninstantiated-symbol table `HashMap<u32, Option<fn(&mut X86)>>` of imports. -/

/-- The eight general-purpose registers dispatched by `Registers::get/set`. -/
inductive Reg where
  | eax | ecx | edx | ebx | esp | ebp | esi | edi
deriving DecidableEq

/-- The x86.rs `Registers` struct (segment selectors included; x86.rs's
`run` never touches them). -/
structure Regs where
  eax : Nat
  ecx : Nat
  edx : Nat
  ebx : Nat
  esp : Nat
  ebp : Nat
  esi : Nat
  edi : Nat
  eip : Nat
  cs : Nat
  ds : Nat
  es : Nat
  fs : Nat
  gs : Nat
  ss : Nat
deriving DecidableEq

/-- `Registers::get` restricted to the handled 32-bit registers. -/
def Regs.get (r : Regs) : Reg → Nat
  | .eax => r.eax
  | .ecx => r.ecx
  | .edx => r.edx
  | .ebx => r.ebx
  | .esp => r.esp
  | .ebp => r.ebp
  | .esi => r.esi
  | .edi => r.edi

/-- `Registers::set`. -/
def Regs.set (r : Regs) : Reg → Nat → Regs
  | .eax, v => { r with eax := v }
  | .ecx, v => { r with ecx := v }
  | .edx, v => { r with edx := v }
  | .ebx, v => { r with ebx := v }
  | .esp, v => { r with esp := v }
  | .ebp, v => { r with ebp := v }
  | .esi, v => { r with esi := v }
  | .edi, v => { r with edi := v }

/-- `Registers::get` on an optional register: `Register::None` reads as 0
(the source's `iced_x86::Register::None => 0` arm). -/
def Regs.getOpt (r : Regs) : Option Reg → Nat
  | none => 0
  | some reg => r.get reg

/-- Import-table handler.  Modelled from the spec: the concrete Win32
handler bodies (kernel32 & co.) are outside src/ in this snapshot; per §3
and §4.5 a `HostHandler` pops its declared stdcall arguments off the guest
stack and writes its return value into `eax`, and does not touch `eip`. -/
structure Handler where
  arity : Nat
  body : List Nat → Nat

/-- The machine state of x86.rs: guest memory, registers, PE base address,
and the import table (an association list standing for the `HashMap`). -/
structure X86 where
  mem : List Nat
  regs : Regs
  base : Nat
  imports : List (Nat × Option Handler)

/-- `HashMap::get` on the import table. -/
def lookupImport (imps : List (Nat × Option Handler)) (a : Nat) : Option (Option Handler) :=
  match imps with
  | [] => none
  | (k, v) :: rest => if k = a then some v else lookupImport rest a

/-- `X86::read_u32`: four little-endian byte loads, each of which panics
when out of bounds. -/
def readU32 (mem : List Nat) (i : Nat) : Option Nat :=
  match mem[i]?, mem[i + 1]?, mem[i + 2]?, mem[i + 3]? with
  | some b0, some b1, some b2, some b3 =>
      some (b0 ||| (b1 <<< 8) ||| (b2 <<< 16) ||| (b3 <<< 24))
  | _, _, _, _ => none

/-- `X86::write_u32`: four little-endian byte stores (`as u8` truncates each
shifted word to a byte); an out-of-range offset panics. -/
def writeU32 (mem : List Nat) (i v : Nat) : Option (List Nat) :=
  if i + 3 < mem.length then
    some ((((mem.set i (v % 256)).set (i + 1) ((v >>> 8) % 256)).set
      (i + 2) ((v >>> 16) % 256)).set (i + 3) ((v >>> 24) % 256))
  else none

/-- `X86::push`: `esp -= 4` (wrapping), then a 32-bit store at `esp`. -/
def X86.push (m : X86) (v : Nat) : Option X86 :=
  match writeU32 m.mem (wsub32 m.regs.esp 4) v with
  | some mem2 => some { m with mem := mem2, regs := { m.regs with esp := wsub32 m.regs.esp 4 } }
  | none => none

/-- `X86::pop`: a 32-bit load at `esp`, then `esp += 4` (wrapping). -/
def X86.pop (m : X86) : Option (Nat × X86) :=
  match readU32 m.mem m.regs.esp with
  | some v => some (v, { m with regs := { m.regs with esp := wadd32 m.regs.esp 4 } })
  | none => none

/-- A decoded memory operand: base register, index register, scale, and
32-bit displacement (as reported by the iced_x86 decoder). -/
structure MemOperand where
  base : Option Reg
  index : Option Reg
  scale : Nat
  disp : Nat
deriving DecidableEq

/-- `X86::addr`: asserts `memory_index_scale() == 1` (the `// TODO` line),
then `base.wrapping_add(index).wrapping_add(disp32)`. -/
def X86.addr (m : X86) (op : MemOperand) : Option Nat :=
  if op.scale = 1 then
    some ((m.regs.getOpt op.base + m.regs.getOpt op.index + op.disp) % U32MOD)
  else none

/-- Effective-address computation as the spec words it (§4.4): for scales
1, 2, 4 and 8, `reg(base) + reg(index)*scale + disp32` with 32-bit
wraparound, a `None` index contributing zero.  Stated for comparison with
`X86.addr` above. -/
def addrSpec (r : Regs) (op : MemOperand) : Option Nat :=
  if op.scale = 1 ∨ op.scale = 2 ∨ op.scale = 4 ∨ op.scale = 8 then
    some ((r.getOpt op.base + r.getOpt op.index * op.scale + op.disp) % U32MOD)
  else none

/-- A register-or-memory operand position. -/
inductive RM where
  | reg : Reg → RM
  | mem : MemOperand → RM
deriving DecidableEq

/-- The instructions dispatched by `X86::run`, carrying the decoded fields
the handlers read.  Immediate payloads are the values the iced accessors
return (`immediate8to32 as u32` is already sign-extended; `andRm32Imm8`
keeps the raw byte because the two arms of that handler extend it
differently).  `len` is the encoded instruction length; the decoder's
`next_ip` is the decode-time `eip` plus `len`.  `unhandled` stands for every
opcode that falls to the `bail!` arm. -/
inductive Instr where
  | enter (imm16 : Nat) (len : Nat)
  | callRel32 (target : Nat) (len : Nat)
  | callRm32 (op : MemOperand) (len : Nat)
  | retn (len : Nat)
  | jmpRel32 (target : Nat) (len : Nat)
  | pushImm8 (v : Nat) (len : Nat)
  | pushImm32 (v : Nat) (len : Nat)
  | pushR32 (r : Reg) (len : Nat)
  | pushRm32 (op : MemOperand) (len : Nat)
  | popR32 (r : Reg) (len : Nat)
  | movRm32Imm32 (op : MemOperand) (v : Nat) (len : Nat)
  | movR32Imm32 (r : Reg) (v : Nat) (len : Nat)
  | movMoffs32EAX (op : MemOperand) (len : Nat)
  | movEAXMoffs32 (op : MemOperand) (len : Nat)
  | movRm32R32 (dst : RM) (src : Reg) (len : Nat)
  | movR32Rm32 (dst : Reg) (src : RM) (len : Nat)
  | andRm32Imm8 (dst : RM) (imm8 : Nat) (len : Nat)
  | xorRm32R32 (r0 : Reg) (r1 : Reg) (len : Nat)
  | subRm32Imm8 (r : Reg) (v : Nat) (len : Nat)
  | subRm32Imm32 (r : Reg) (v : Nat) (len : Nat)
  | leaR32 (r : Reg) (op : MemOperand) (len : Nat)
  | unhandled (len : Nat)

/-- Length of the encoded instruction (`instr.len()`). -/
def Instr.len : Instr → Nat
  | .enter _ l => l
  | .callRel32 _ l => l
  | .callRm32 _ l => l
  | .retn l => l
  | .jmpRel32 _ l => l
  | .pushImm8 _ l => l
  | .pushImm32 _ l => l
  | .pushR32 _ l => l
  | .pushRm32 _ l => l
  | .popR32 _ l => l
  | .movRm32Imm32 _ _ l => l
  | .movR32Imm32 _ _ l => l
  | .movMoffs32EAX _ l => l
  | .movEAXMoffs32 _ l => l
  | .movRm32R32 _ _ l => l
  | .movR32Rm32 _ _ l => l
  | .andRm32Imm8 _ _ l => l
  | .xorRm32R32 _ _ l => l
  | .subRm32Imm8 _ _ l => l
  | .subRm32Imm32 _ _ l => l
  | .leaR32 _ _ l => l
  | .unhandled l => l

/-- Pop `n` stdcall argument words off the guest stack. -/
def popArgs : Nat → X86 → Option (List Nat × X86)
  | 0, m => some ([], m)
  | n + 1, m =>
    match m.pop with
    | some (v, m1) =>
      match popArgs n m1 with
      | some (args, m2) => some (v :: args, m2)
      | none => none
    | none => none

/-- Run an import handler (spec-modelled shim contract: pop the declared
arity of `u32` arguments, write the return value into `eax`). -/
def runHandler (h : Handler) (m : X86) : Option X86 :=
  match popArgs h.arity m with
  | some (args, m1) => some { m1 with regs := { m1.regs with eax := h.body args % U32MOD } }
  | none => none

/-- Sign extension of an immediate byte to 32 bits (`immediate8to32 as u32`). -/
def sext8 (b : Nat) : Nat := if b % 256 < 128 then b % 256 else b % 256 + 4294967040

/-- The `self.regs.eip = instr.next_ip()` line of `X86::run`: the decoder
was built with `ip = eip`, so `next_ip` is the pre-step `eip` plus the
instruction length. -/
def stepIp (m : X86) (l : Nat) : X86 :=
  { m with regs := { m.regs with eip := wadd32 m.regs.eip l } }

/-- `X86::run`: set `eip := next_ip` first, then dispatch on the opcode.
`none` is an abnormal end of the step: a failed `assert!`, an out-of-bounds
memory access, or the `bail!` arm (which first rewinds `eip`). -/
def X86.run (m : X86) (i : Instr) : Option X86 :=
  let m1 : X86 := stepIp m i.len
  match i with
  | .enter imm16 _ =>
    match m1.push m1.regs.ebp with
    | some m2 =>
      some { m2 with
        regs := { m2.regs with ebp := m2.regs.esp, esp := wsub32 m2.regs.esp (imm16 % 65536) } }
    | none => none
  | .callRel32 t _ =>
    match m1.push m1.regs.eip with
    | some m2 => some { m2 with regs := { m2.regs with eip := t } }
    | none => none
  | .callRm32 op _ =>
    if op.index = none then
      match m1.addr op with
      | some a =>
        match readU32 m1.mem a with
        | some target =>
          match lookupImport m1.imports target with
          | some (some h) => runHandler h m1
          | some none => some m1
          | none =>
            match m1.push m1.regs.eip with
            | some m2 => some { m2 with regs := { m2.regs with eip := target } }
            | none => none
        | none => none
      | none => none
    else none
  | .retn _ =>
    match m1.pop with
    | some (v, m2) => some { m2 with regs := { m2.regs with eip := v } }
    | none => none
  | .jmpRel32 t _ => some { m1 with regs := { m1.regs with eip := t } }
  | .pushImm8 v _ => m1.push v
  | .pushImm32 v _ => m1.push v
  | .pushR32 r _ => m1.push (m1.regs.get r)
  | .pushRm32 op _ =>
    match m1.addr op with
    | some a =>
      match readU32 m1.mem a with
      | some v => m1.push v
      | none => none
    | none => none
  | .popR32 r _ =>
    match m1.pop with
    | some (v, m2) => some { m2 with regs := m2.regs.set r v }
    | none => none
  | .movRm32Imm32 op v _ =>
    match m1.addr op with
    | some a =>
      match writeU32 m1.mem a v with
      | some mem2 => some { m1 with mem := mem2 }
      | none => none
    | none => none
  | .movR32Imm32 r v _ => some { m1 with regs := m1.regs.set r v }
  | .movMoffs32EAX op _ =>
    match m1.addr op with
    | some a =>
      match writeU32 m1.mem a m1.regs.eax with
      | some mem2 => some { m1 with mem := mem2 }
      | none => none
    | none => none
  | .movEAXMoffs32 op _ =>
    match m1.addr op with
    | some a =>
      match readU32 m1.mem a with
      | some v => some { m1 with regs := { m1.regs with eax := v } }
      | none => none
    | none => none
  | .movRm32R32 dst src _ =>
    match dst with
    | .reg r => some { m1 with regs := m1.regs.set r (m1.regs.get src) }
    | .mem op =>
      match m1.addr op with
      | some a =>
        match writeU32 m1.mem a (m1.regs.get src) with
        | some mem2 => some { m1 with mem := mem2 }
        | none => none
      | none => none
  | .movR32Rm32 dst src _ =>
    match src with
    | .reg r => some { m1 with regs := m1.regs.set dst (m1.regs.get r) }
    | .mem op =>
      match m1.addr op with
      | some a =>
        match readU32 m1.mem a with
        | some v => some { m1 with regs := m1.regs.set dst v }
        | none => none
      | none => none
  | .andRm32Imm8 dst b _ =>
    match dst with
    | .reg r => some { m1 with regs := m1.regs.set r (m1.regs.get r &&& sext8 b) }
    | .mem op =>
      match m1.addr op with
      | some a =>
        match readU32 m1.mem a with
        | some v =>
          match writeU32 m1.mem a (v &&& (b % 256)) with
          | some mem2 => some { m1 with mem := mem2 }
          | none => none
        | none => none
      | none => none
  | .xorRm32R32 r0 r1 _ =>
    some { m1 with regs := m1.regs.set r0 (m1.regs.get r0 ^^^ m1.regs.get r1) }
  | .subRm32Imm8 r v _ => some { m1 with regs := m1.regs.set r (wsub32 (m1.regs.get r) v) }
  | .subRm32Imm32 r v _ => some { m1 with regs := m1.regs.set r (wsub32 (m1.regs.get r) v) }
  | .leaR32 r op _ =>
    match m1.addr op with
    | some a => some { m1 with regs := m1.regs.set r a }
    | none => none
  | .unhandled _ => none

/-! ## Mappings and the allocator of src/win32/src/windows.rs -/

/-- A committed region of guest memory. -/
structure Mapping where
  addr : Nat
  size : Nat
  desc : String
deriving DecidableEq

/-- The C4 invariant as the claim words it: the list is sorted strictly by
`addr` and consecutive mappings satisfy `m.addr + m.size ≤ next.addr`
(exact arithmetic on the stored `u32` values). -/
def mappingsOk : List Mapping → Bool
  | [] => true
  | [_] => true
  | a :: b :: rest =>
    decide (a.addr < b.addr) && decide (a.addr + a.size ≤ b.addr) && mappingsOk (b :: rest)

/-- Insert at an index (`Vec::insert`). -/
def insertAt (l : List Mapping) (pos : Nat) (m : Mapping) : List Mapping :=
  l.take pos ++ m :: l.drop pos

/-- `AppState::add_mapping`: find the first position whose mapping starts
above the new one, assert non-overlap with both neighbours (`u32` addition
wraps in the release profile), and insert. -/
def addMapping (l : List Mapping) (m : Mapping) : Option (List Mapping) :=
  let pos := (l.findIdx? (fun x => decide (m.addr < x.addr))).getD l.length
  let prevOk :=
    match pos, l[pos - 1]? with
    | 0, _ => true
    | _ + 1, some prev => decide (wadd32 prev.addr prev.size ≤ m.addr)
    | _ + 1, none => true
  let nextOk :=
    match l[pos]? with
    | some next => decide (wadd32 m.addr m.size ≤ next.addr)
    | none => true
  if prevOk && nextOk then some (insertAt l pos m) else none

/-- The loop body of `AppState::alloc`: walk the mappings with a running
page-rounded `end` pointer; `space = mapping.addr - end` is `u32`
subtraction (wrapping in the release profile); insert at the first gap with
`space > size`.  Falling off the end of the list panics. -/
def allocAux (size : Nat) (desc : String) (endp : Nat) : List Mapping → Option (Mapping × List Mapping)
  | [] => none
  | m :: rest =>
    let space := wsub32 m.addr endp
    if size < space then
      let nm : Mapping := ⟨endp, size, desc⟩
      some (nm, nm :: m :: rest)
    else
      match allocAux size desc (wadd32 (wadd32 m.addr m.size) 4095 &&& 4294963200) rest with
      | some (nm, rest2) => some (nm, m :: rest2)
      | none => none

/-- `AppState::alloc`, starting from `end = 0`. -/
def alloc (l : List Mapping) (size : Nat) (desc : String) : Option (Mapping × List Mapping) :=
  allocAux size desc 0 l

/-- The stack-setup phase of `load_exe` (windows.rs lines 100–112): clamp
`size_of_stack_reserve` to 32 KiB when it exceeds 1 MiB, allocate the stack
mapping, and set `esp = ebp = stack.addr + stack.size - 4` (`u32`
arithmetic).  Returns the stack mapping, the new mapping list, `esp` and
`ebp`. -/
def loadStack (reserve : Nat) (l : List Mapping) : Option (Mapping × List Mapping × Nat × Nat) :=
  let stackSize := if 1048576 < reserve then 32768 else reserve
  match alloc l stackSize ("stack") with
  | some (stack, l2) =>
    let stackEnd := wsub32 (wadd32 stack.addr stack.size) 4
    some (stack, l2, stackEnd, stackEnd)
  | none => none

/-! ### Helper lemmas about the interpreter state -/

lemma stepIp_mem (m : X86) (l : Nat) : (stepIp m l).mem = m.mem := rfl

lemma stepIp_imports (m : X86) (l : Nat) : (stepIp m l).imports = m.imports := rfl

lemma stepIp_base (m : X86) (l : Nat) : (stepIp m l).base = m.base := rfl

lemma stepIp_esp (m : X86) (l : Nat) : (stepIp m l).regs.esp = m.regs.esp := rfl

lemma stepIp_eip (m : X86) (l : Nat) : (stepIp m l).regs.eip = wadd32 m.regs.eip l := rfl

lemma Regs.set_eip (r : Regs) (reg : Reg) (v : Nat) : (r.set reg v).eip = r.eip := by
  cases reg <;> rfl

lemma get_stepIp (m : X86) (l : Nat) (reg : Reg) :
    (stepIp m l).regs.get reg = m.regs.get reg := by
  cases reg <;> rfl

lemma getOpt_stepIp (m : X86) (l : Nat) (o : Option Reg) :
    (stepIp m l).regs.getOpt o = m.regs.getOpt o := by
  cases o with
  | none => rfl
  | some reg => exact get_stepIp m l reg

lemma addr_stepIp (m : X86) (l : Nat) (op : MemOperand) :
    (stepIp m l).addr op = m.addr op := by
  simp only [X86.addr, getOpt_stepIp]

lemma push_some {m m1 : X86} {v : Nat} (h : m.push v = some m1) :
    ∃ mem2, writeU32 m.mem (wsub32 m.regs.esp 4) v = some mem2 ∧
      m1 = { m with mem := mem2, regs := { m.regs with esp := wsub32 m.regs.esp 4 } } := by
  unfold X86.push at h
  cases hw : writeU32 m.mem (wsub32 m.regs.esp 4) v with
  | none => rw [hw] at h; exact Option.noConfusion h
  | some mem2 =>
    rw [hw] at h
    exact ⟨mem2, rfl, (Option.some.inj h).symm⟩

lemma pop_some {m : X86} {v : Nat} {m1 : X86} (h : m.pop = some (v, m1)) :
    readU32 m.mem m.regs.esp = some v ∧
      m1 = { m with regs := { m.regs with esp := wadd32 m.regs.esp 4 } } := by
  unfold X86.pop at h
  cases hr : readU32 m.mem m.regs.esp with
  | none => rw [hr] at h; exact Option.noConfusion h
  | some v2 =>
    rw [hr] at h
    have h2 := Option.some.inj h
    obtain ⟨rfl, rfl⟩ := Prod.mk.injEq .. ▸ h2
    exact ⟨rfl, rfl⟩

lemma push_eq {m : X86} {v : Nat} {mem2 : List Nat}
    (h : writeU32 m.mem (wsub32 m.regs.esp 4) v = some mem2) :
    m.push v = some { m with mem := mem2, regs := { m.regs with esp := wsub32 m.regs.esp 4 } } := by
  unfold X86.push
  rw [h]

lemma pop_eq {m : X86} {v : Nat} (h : readU32 m.mem m.regs.esp = some v) :
    m.pop = some (v, { m with regs := { m.regs with esp := wadd32 m.regs.esp 4 } }) := by
  unfold X86.pop
  rw [h]

lemma popArgs_pres {n : Nat} {m : X86} {args : List Nat} {m2 : X86}
    (h : popArgs n m = some (args, m2)) :
    m2.mem = m.mem ∧ m2.regs.eip = m.regs.eip ∧ m2.imports = m.imports ∧ m2.base = m.base := by
  induction n generalizing m args with
  | zero =>
    simp only [popArgs] at h
    obtain ⟨rfl, rfl⟩ := Prod.mk.injEq .. ▸ Option.some.inj h
    exact ⟨rfl, rfl, rfl, rfl⟩
  | succ n ih =>
    simp only [popArgs] at h
    cases hp : m.pop with
    | none => simp only [hp] at h; exact Option.noConfusion h
    | some vm =>
      obtain ⟨v, mm⟩ := vm
      simp only [hp] at h
      cases hpa : popArgs n mm with
      | none => simp only [hpa] at h; exact Option.noConfusion h
      | some am =>
        obtain ⟨args2, m3⟩ := am
        simp only [hpa] at h
        obtain ⟨rfl, rfl⟩ := Prod.mk.injEq .. ▸ Option.some.inj h
        obtain ⟨hmem, hrest⟩ := pop_some hp
        subst hrest
        have hih := ih hpa
        exact ⟨hih.1, hih.2.1, hih.2.2.1, hih.2.2.2⟩

lemma runHandler_pres {h : Handler} {m m1 : X86} (hh : runHandler h m = some m1) :
    m1.regs.eip = m.regs.eip ∧ m1.imports = m.imports ∧ m1.base = m.base := by
  unfold runHandler at hh
  cases hpa : popArgs h.arity m with
  | none => rw [hpa] at hh; exact Option.noConfusion hh
  | some am =>
    obtain ⟨args, m2⟩ := am
    rw [hpa] at hh
    obtain rfl := (Option.some.inj hh).symm
    have hp := popArgs_pres hpa
    exact ⟨hp.2.1, hp.2.2.1, hp.2.2.2⟩

/-- The branch target of a taken branch, read from the pre-step state:
`near_branch32` for `call rel32` / `jmp rel32`, the word popped off the
stack for `ret`, and the word loaded from the effective address for a
`call rm32` whose target is not in the import table (import hits continue
at the next instruction instead). -/
def branchTarget (m : X86) (i : Instr) : Option Nat :=
  match i with
  | .callRel32 t _ => some t
  | .jmpRel32 t _ => some t
  | .retn _ => readU32 m.mem m.regs.esp
  | .callRm32 op _ =>
    if op.index = none then
      match m.addr op with
      | some a =>
        match readU32 m.mem a with
        | some target =>
          match lookupImport m.imports target with
          | none => some target
          | some _ => none
        | none => none
      | none => none
    else none
  | _ => none

/-- Case analysis of `X86::run`: on a normal return the final `eip` is the
branch target for a taken branch and `pre-eip + len` otherwise, and the
table of imports and the base address are untouched. -/
lemma run_spec (m : X86) (i : Instr) (m2 : X86) (h : m.run i = some m2) :
    m2.regs.eip = (match branchTarget m i with
      | some t => t
      | none => wadd32 m.regs.eip i.len) ∧
    m2.imports = m.imports ∧ m2.base = m.base := by
  cases i with
  | enter imm16 len =>
    simp only [X86.run, Instr.len] at h
    cases hp : (stepIp m len).push (stepIp m len).regs.ebp with
    | none => simp only [hp] at h; exact Option.noConfusion h
    | some mp =>
      simp only [hp] at h
      obtain ⟨mem2, hw, rfl⟩ := push_some hp
      obtain rfl := (Option.some.inj h).symm
      exact ⟨rfl, rfl, rfl⟩
  | callRel32 t len =>
    simp only [X86.run, Instr.len] at h
    cases hp : (stepIp m len).push (stepIp m len).regs.eip with
    | none => simp only [hp] at h; exact Option.noConfusion h
    | some mp =>
      simp only [hp] at h
      obtain ⟨mem2, hw, rfl⟩ := push_some hp
      obtain rfl := (Option.some.inj h).symm
      exact ⟨rfl, rfl, rfl⟩
  | callRm32 op len =>
    simp only [X86.run, Instr.len] at h
    by_cases hidx : op.index = none
    · rw [if_pos hidx] at h
      cases ha : (stepIp m len).addr op with
      | none => simp only [ha] at h; exact Option.noConfusion h
      | some a =>
        simp only [ha] at h
        rw [addr_stepIp] at ha
        cases hr : readU32 (stepIp m len).mem a with
        | none => simp only [hr] at h; exact Option.noConfusion h
        | some target =>
          simp only [hr] at h
          have hr2 : readU32 m.mem a = some target := hr
          cases hl : lookupImport (stepIp m len).imports target with
          | none =>
            simp only [hl] at h
            have hl2 : lookupImport m.imports target = none := hl
            cases hp : (stepIp m len).push (stepIp m len).regs.eip with
            | none => simp only [hp] at h; exact Option.noConfusion h
            | some mp =>
              simp only [hp] at h
              obtain ⟨mem2, hw, rfl⟩ := push_some hp
              obtain rfl := (Option.some.inj h).symm
              refine ⟨?_, rfl, rfl⟩
              simp only [branchTarget, Instr.len]
              rw [if_pos hidx]
              simp only [ha, hr2, hl2]
          | some oh =>
            cases oh with
            | none =>
              simp only [hl] at h
              have hl2 : lookupImport m.imports target = some none := hl
              obtain rfl := (Option.some.inj h).symm
              refine ⟨?_, rfl, rfl⟩
              simp only [branchTarget, Instr.len, stepIp_eip]
              rw [if_pos hidx]
              simp only [ha, hr2, hl2]
            | some hdl =>
              simp only [hl] at h
              have hl2 : lookupImport m.imports target = some (some hdl) := hl
              have hpres := runHandler_pres h
              refine ⟨?_, hpres.2.1, hpres.2.2⟩
              rw [hpres.1]
              simp only [branchTarget, Instr.len, stepIp_eip]
              rw [if_pos hidx]
              simp only [ha, hr2, hl2]
    · rw [if_neg hidx] at h
      exact Option.noConfusion h
  | retn len =>
    simp only [X86.run, Instr.len] at h
    cases hp : (stepIp m len).pop with
    | none => simp only [hp] at h; exact Option.noConfusion h
    | some vm =>
      obtain ⟨v, mp⟩ := vm
      simp only [hp] at h
      have hspec := pop_some hp
      have hr2 : readU32 m.mem m.regs.esp = some v := hspec.1
      obtain ⟨-, rfl⟩ := hspec
      obtain rfl := (Option.some.inj h).symm
      refine ⟨?_, rfl, rfl⟩
      simp only [branchTarget, hr2]
  | jmpRel32 t len =>
    simp only [X86.run, Instr.len] at h
    obtain rfl := (Option.some.inj h).symm
    exact ⟨rfl, rfl, rfl⟩
  | pushImm8 v len =>
    simp only [X86.run, Instr.len] at h
    obtain ⟨mem2, hw, rfl⟩ := push_some h
    exact ⟨rfl, rfl, rfl⟩
  | pushImm32 v len =>
    simp only [X86.run, Instr.len] at h
    obtain ⟨mem2, hw, rfl⟩ := push_some h
    exact ⟨rfl, rfl, rfl⟩
  | pushR32 r len =>
    simp only [X86.run, Instr.len] at h
    obtain ⟨mem2, hw, rfl⟩ := push_some h
    exact ⟨rfl, rfl, rfl⟩
  | pushRm32 op len =>
    simp only [X86.run, Instr.len] at h
    cases ha : (stepIp m len).addr op with
    | none => simp only [ha] at h; exact Option.noConfusion h
    | some a =>
      simp only [ha] at h
      cases hr : readU32 (stepIp m len).mem a with
      | none => simp only [hr] at h; exact Option.noConfusion h
      | some v =>
        simp only [hr] at h
        obtain ⟨mem2, hw, rfl⟩ := push_some h
        exact ⟨rfl, rfl, rfl⟩
  | popR32 r len =>
    simp only [X86.run, Instr.len] at h
    cases hp : (stepIp m len).pop with
    | none => simp only [hp] at h; exact Option.noConfusion h
    | some vm =>
      obtain ⟨v, mp⟩ := vm
      simp only [hp] at h
      obtain ⟨-, rfl⟩ := pop_some hp
      obtain rfl := (Option.some.inj h).symm
      exact ⟨by simp only [Regs.set_eip, branchTarget, Instr.len, stepIp_eip], rfl, rfl⟩
  | movRm32Imm32 op v len =>
    simp only [X86.run, Instr.len] at h
    cases ha : (stepIp m len).addr op with
    | none => simp only [ha] at h; exact Option.noConfusion h
    | some a =>
      simp only [ha] at h
      cases hw : writeU32 (stepIp m len).mem a v with
      | none => simp only [hw] at h; exact Option.noConfusion h
      | some mem2 =>
        simp only [hw] at h
        obtain rfl := (Option.some.inj h).symm
        exact ⟨rfl, rfl, rfl⟩
  | movR32Imm32 r v len =>
    simp only [X86.run, Instr.len] at h
    obtain rfl := (Option.some.inj h).symm
    exact ⟨by simp only [Regs.set_eip, branchTarget, Instr.len, stepIp_eip], rfl, rfl⟩
  | movMoffs32EAX op len =>
    simp only [X86.run, Instr.len] at h
    cases ha : (stepIp m len).addr op with
    | none => simp only [ha] at h; exact Option.noConfusion h
    | some a =>
      simp only [ha] at h
      cases hw : writeU32 (stepIp m len).mem a (stepIp m len).regs.eax with
      | none => simp only [hw] at h; exact Option.noConfusion h
      | some mem2 =>
        simp only [hw] at h
        obtain rfl := (Option.some.inj h).symm
        exact ⟨rfl, rfl, rfl⟩
  | movEAXMoffs32 op len =>
    simp only [X86.run, Instr.len] at h
    cases ha : (stepIp m len).addr op with
    | none => simp only [ha] at h; exact Option.noConfusion h
    | some a =>
      simp only [ha] at h
      cases hr : readU32 (stepIp m len).mem a with
      | none => simp only [hr] at h; exact Option.noConfusion h
      | some v =>
        simp only [hr] at h
        obtain rfl := (Option.some.inj h).symm
        exact ⟨rfl, rfl, rfl⟩
  | movRm32R32 dst src len =>
    simp only [X86.run, Instr.len] at h
    cases dst with
    | reg r =>
      simp only [] at h
      obtain rfl := (Option.some.inj h).symm
      exact ⟨by simp only [Regs.set_eip, branchTarget, Instr.len, stepIp_eip], rfl, rfl⟩
    | mem op =>
      simp only [] at h
      cases ha : (stepIp m len).addr op with
      | none => simp only [ha] at h; exact Option.noConfusion h
      | some a =>
        simp only [ha] at h
        cases hw : writeU32 (stepIp m len).mem a ((stepIp m len).regs.get src) with
        | none => simp only [hw] at h; exact Option.noConfusion h
        | some mem2 =>
          simp only [hw] at h
          obtain rfl := (Option.some.inj h).symm
          exact ⟨rfl, rfl, rfl⟩
  | movR32Rm32 dst src len =>
    simp only [X86.run, Instr.len] at h
    cases src with
    | reg r =>
      simp only [] at h
      obtain rfl := (Option.some.inj h).symm
      exact ⟨by simp only [Regs.set_eip, branchTarget, Instr.len, stepIp_eip], rfl, rfl⟩
    | mem op =>
      simp only [] at h
      cases ha : (stepIp m len).addr op with
      | none => simp only [ha] at h; exact Option.noConfusion h
      | some a =>
        simp only [ha] at h
        cases hr : readU32 (stepIp m len).mem a with
        | none => simp only [hr] at h; exact Option.noConfusion h
        | some v =>
          simp only [hr] at h
          obtain rfl := (Option.some.inj h).symm
          exact ⟨by simp only [Regs.set_eip, branchTarget, Instr.len, stepIp_eip], rfl, rfl⟩
  | andRm32Imm8 dst b len =>
    simp only [X86.run, Instr.len] at h
    cases dst with
    | reg r =>
      simp only [] at h
      obtain rfl := (Option.some.inj h).symm
      exact ⟨by simp only [Regs.set_eip, branchTarget, Instr.len, stepIp_eip], rfl, rfl⟩
    | mem op =>
      simp only [] at h
      cases ha : (stepIp m len).addr op with
      | none => simp only [ha] at h; exact Option.noConfusion h
      | some a =>
        simp only [ha] at h
        cases hr : readU32 (stepIp m len).mem a with
        | none => simp only [hr] at h; exact Option.noConfusion h
        | some v =>
          simp only [hr] at h
          cases hw : writeU32 (stepIp m len).mem a (v &&& (b % 256)) with
          | none => simp only [hw] at h; exact Option.noConfusion h
          | some mem2 =>
            simp only [hw] at h
            obtain rfl := (Option.some.inj h).symm
            exact ⟨rfl, rfl, rfl⟩
  | xorRm32R32 r0 r1 len =>
    simp only [X86.run, Instr.len] at h
    obtain rfl := (Option.some.inj h).symm
    exact ⟨by simp only [Regs.set_eip, branchTarget, Instr.len, stepIp_eip], rfl, rfl⟩
  | subRm32Imm8 r v len =>
    simp only [X86.run, Instr.len] at h
    obtain rfl := (Option.some.inj h).symm
    exact ⟨by simp only [Regs.set_eip, branchTarget, Instr.len, stepIp_eip], rfl, rfl⟩
  | subRm32Imm32 r v len =>
    simp only [X86.run, Instr.len] at h
    obtain rfl := (Option.some.inj h).symm
    exact ⟨by simp only [Regs.set_eip, branchTarget, Instr.len, stepIp_eip], rfl, rfl⟩
  | leaR32 r op len =>
    simp only [X86.run, Instr.len] at h
    cases ha : (stepIp m len).addr op with
    | none => simp only [ha] at h; exact Option.noConfusion h
    | some a =>
      simp only [ha] at h
      obtain rfl := (Option.some.inj h).symm
      exact ⟨by simp only [Regs.set_eip, branchTarget, Instr.len, stepIp_eip], rfl, rfl⟩
  | unhandled len =>
    simp only [X86.run] at h
    exact Option.noConfusion h

/--
C2.  For every instruction the interpreter dispatches successfully, after
the step the `eip` register equals the pre-step `eip` plus the instruction
length (32-bit wrapping), except when the instruction is a taken branch
(`call`, `jmp`, `ret`), in which case `eip` equals the branch target.
-/
theorem run_eip_next_or_branch (m m2 : X86) (i : Instr) (h : m.run i = some m2) :
    m2.regs.eip = (match branchTarget m i with
      | some t => t
      | none => wadd32 m.regs.eip i.len) :=
  (run_spec m i m2 h).1

/-- Registers with every field zero. -/
def regs0 : Regs := ⟨0, 0, 0, 0, 0, 0, 0, 0, 0, 0, 0, 0, 0, 0, 0⟩

/-- A minimal machine for the C2 witness. -/
def MW2 : X86 := { mem := [], regs := regs0, base := 0, imports := [] }

/-- The C2 witness instruction: `mov ebx, 7`, five bytes long. -/
def IW2 : Instr := .movR32Imm32 .ebx 7 5

/-- The machine after the C2 witness step. -/
def MW2post : X86 :=
  { mem := [], regs := { regs0 with ebx := 7, eip := 5 }, base := 0, imports := [] }

/-- C2 witness: the theorem applied to a concrete `mov ebx, 7` step. -/
theorem run_eip_next_or_branch_witness :
    X86.run MW2 IW2 = some MW2post ∧
    MW2post.regs.eip = (match branchTarget MW2 IW2 with
      | some t => t
      | none => wadd32 MW2.regs.eip IW2.len) :=
  ⟨rfl, run_eip_next_or_branch MW2 MW2post IW2 rfl⟩

/-- Does this instruction resolve, on this machine, to an import-table entry
with a `Some` handler?  (The case C10 excludes.) -/
def resolvesToHandler (m : X86) (i : Instr) : Bool :=
  match i with
  | .callRm32 op _ =>
    if op.index = none then
      match m.addr op with
      | some a =>
        match readU32 m.mem a with
        | some target =>
          match lookupImport m.imports target with
          | some (some _) => true
          | _ => false
        | none => false
      | none => false
    else false
  | _ => false

/--
C10.  For every instruction handled by `run` other than an indirect call
that resolves to a `Some` import handler, a successful step leaves the
machine's import table and base address unchanged; only `regs` and `mem`
can be modified.
-/
theorem run_preserves_imports_base (m m2 : X86) (i : Instr) (h : m.run i = some m2)
    (_hni : resolvesToHandler m i = false) :
    m2.imports = m.imports ∧ m2.base = m.base :=
  ⟨(run_spec m i m2 h).2.1, (run_spec m i m2 h).2.2⟩

/-- A machine with a nonzero base address for the C10 witness. -/
def MW10 : X86 := { mem := [], regs := { regs0 with eax := 3 }, base := 9, imports := [] }

/-- The C10 witness instruction: `xor eax, eax`, two bytes long. -/
def IW10 : Instr := .xorRm32R32 .eax .eax 2

/-- The machine after the C10 witness step. -/
def MW10post : X86 :=
  { mem := [], regs := { regs0 with eax := 0, eip := 2 }, base := 9, imports := [] }

/-- C10 witness: the theorem applied to a concrete `xor eax, eax` step. -/
theorem run_preserves_imports_base_witness :
    X86.run MW10 IW10 = some MW10post ∧ resolvesToHandler MW10 IW10 = false ∧
    (MW10post.imports = MW10.imports ∧ MW10post.base = MW10.base) :=
  ⟨rfl, rfl, run_preserves_imports_base MW10 MW10post IW10 rfl rfl⟩

/-- C3 concrete machine: `eax = 5`, the word at address 8 holds the call
target 16, and the import table maps 16 to `None` (recognized but
unimplemented). -/
def M3 : X86 :=
  { mem := [0, 0, 0, 0, 0, 0, 0, 0, 16, 0, 0, 0],
    regs := { regs0 with eax := 5, esp := 4, eip := 256 },
    base := 0, imports := [(16, none)] }

/-- The C3 instruction: `call dword ptr [8]`, six bytes long. -/
def I3 : Instr := .callRm32 ⟨none, none, 1, 8⟩ 6

/--
C3 counterexample: the claim says a `call rm32` through an import-table
entry with handler `None` continues with `eax = 0` (and the declared arity
popped), but the code only logs: `eax` keeps its prior value 5.
-/
theorem callRm32_none_import_counterexample :
    ((X86.run M3 I3).map fun mm => mm.regs.eax) = some 5 ∧
    ((X86.run M3 I3).map fun mm => mm.regs.eax) ≠ some 0 := by
  constructor
  · rfl
  · decide

/--
C3 amended: for every indirect call whose target address is present in
the import table with handler `None`, execution continues at the next
instruction with the machine otherwise unchanged — `eax` is not set, no
argument words are popped, memory is untouched; the event is only logged.
-/
theorem callRm32_none_import_continues (m : X86) (op : MemOperand) (len a t : Nat)
    (hidx : op.index = none) (ha : m.addr op = some a)
    (ht : readU32 m.mem a = some t) (hlook : lookupImport m.imports t = some none) :
    m.run (.callRm32 op len) = some (stepIp m len) := by
  simp only [X86.run, Instr.len]
  rw [if_pos hidx]
  have ha2 : (stepIp m len).addr op = some a := by rw [addr_stepIp]; exact ha
  have ht2 : readU32 (stepIp m len).mem a = some t := ht
  have hl2 : lookupImport (stepIp m len).imports t = some none := hlook
  simp only [ha2, ht2, hl2]

/-- C3 witness: the amended theorem applied to the concrete machine `M3`. -/
theorem callRm32_none_import_continues_witness :
    ((MemOperand.index ⟨none, none, 1, 8⟩ = none) ∧ X86.addr M3 ⟨none, none, 1, 8⟩ = some 8 ∧
      readU32 M3.mem 8 = some 16 ∧ lookupImport M3.imports 16 = some none) ∧
    X86.run M3 (.callRm32 ⟨none, none, 1, 8⟩ 6) = some (stepIp M3 6) :=
  ⟨⟨rfl, rfl, rfl, rfl⟩,
    callRm32_none_import_continues M3 ⟨none, none, 1, 8⟩ 6 8 16 rfl rfl rfl rfl⟩

/-! ### C5: push/pop round trip -/

lemma getElem?_set_self {α : Type _} {l : List α} {i : Nat} {x : α} (h : i < l.length) :
    (l.set i x)[i]? = some x := by
  rw [List.getElem?_set, if_pos rfl, if_pos h]

lemma getElem?_set_other {α : Type _} {l : List α} {i j : Nat} {x : α} (h : i ≠ j) :
    (l.set i x)[j]? = l[j]? := by
  rw [List.getElem?_set, if_neg h]

/-- Recomposing the four little-endian bytes of a 32-bit value by the
`read_u32` formula gives the value back. -/
lemma u32_bytes_roundtrip (v : Nat) (h : v < U32MOD) :
    (v % 256) ||| (((v >>> 8) % 256) <<< 8) ||| (((v >>> 16) % 256) <<< 16) |||
      (((v >>> 24) % 256) <<< 24) = v := by
  apply Nat.eq_of_testBit_eq
  intro i
  have e256 : (256 : Nat) = 2 ^ 8 := rfl
  rw [e256]
  simp only [Nat.testBit_lor, Nat.testBit_shiftLeft, Nat.testBit_mod_two_pow,
    Nat.testBit_shiftRight]
  by_cases h8 : i < 8
  · have n1 : ¬ (i ≥ 8) := by omega
    have n2 : ¬ (i ≥ 16) := by omega
    have n3 : ¬ (i ≥ 24) := by omega
    simp [h8, n1, n2, n3]
  · by_cases h16 : i < 16
    · have y1 : i ≥ 8 := by omega
      have n2 : ¬ (i ≥ 16) := by omega
      have n3 : ¬ (i ≥ 24) := by omega
      have d1 : i - 8 < 8 := by omega
      have e1 : 8 + (i - 8) = i := by omega
      simp [h8, y1, n2, n3, d1, e1]
    · by_cases h24 : i < 24
      · have y1 : i ≥ 8 := by omega
        have y2 : i ≥ 16 := by omega
        have n3 : ¬ (i ≥ 24) := by omega
        have d1 : ¬ (i - 8 < 8) := by omega
        have d2 : i - 16 < 8 := by omega
        have e2 : 16 + (i - 16) = i := by omega
        simp [h8, y1, y2, n3, d1, d2, e2]
      · by_cases h32 : i < 32
        · have y1 : i ≥ 8 := by omega
          have y2 : i ≥ 16 := by omega
          have y3 : i ≥ 24 := by omega
          have d1 : ¬ (i - 8 < 8) := by omega
          have d2 : ¬ (i - 16 < 8) := by omega
          have d3 : i - 24 < 8 := by omega
          have e3 : 24 + (i - 24) = i := by omega
          simp [h8, y1, y2, y3, d1, d2, d3, e3]
        · have hv : v.testBit i = false := by
            apply Nat.testBit_lt_two_pow
            calc v < U32MOD := h
              _ = 2 ^ 32 := rfl
              _ ≤ 2 ^ i := Nat.pow_le_pow_right (by omega) (by omega)
          have d1 : ¬ (i - 8 < 8) := by omega
          have d2 : ¬ (i - 16 < 8) := by omega
          have d3 : ¬ (i - 24 < 8) := by omega
          simp [h8, d1, d2, d3, hv]

/-- A 32-bit store followed by a 32-bit load at the same address returns the
stored value. -/
lemma readU32_writeU32 {mem mem2 : List Nat} {a v : Nat} (hv : v < U32MOD)
    (h : writeU32 mem a v = some mem2) : readU32 mem2 a = some v := by
  unfold writeU32 at h
  by_cases hb : a + 3 < mem.length
  · rw [if_pos hb] at h
    obtain rfl := (Option.some.inj h).symm
    have h0 : ((((mem.set a (v % 256)).set (a + 1) ((v >>> 8) % 256)).set
        (a + 2) ((v >>> 16) % 256)).set (a + 3) ((v >>> 24) % 256))[a]? = some (v % 256) := by
      rw [getElem?_set_other (by omega), getElem?_set_other (by omega),
        getElem?_set_other (by omega), getElem?_set_self (by omega)]
    have h1 : ((((mem.set a (v % 256)).set (a + 1) ((v >>> 8) % 256)).set
        (a + 2) ((v >>> 16) % 256)).set (a + 3) ((v >>> 24) % 256))[a + 1]? =
        some ((v >>> 8) % 256) := by
      rw [getElem?_set_other (by omega), getElem?_set_other (by omega),
        getElem?_set_self (by rw [List.length_set]; omega)]
    have h2 : ((((mem.set a (v % 256)).set (a + 1) ((v >>> 8) % 256)).set
        (a + 2) ((v >>> 16) % 256)).set (a + 3) ((v >>> 24) % 256))[a + 2]? =
        some ((v >>> 16) % 256) := by
      rw [getElem?_set_other (by omega),
        getElem?_set_self (by rw [List.length_set, List.length_set]; omega)]
    have h3 : ((((mem.set a (v % 256)).set (a + 1) ((v >>> 8) % 256)).set
        (a + 2) ((v >>> 16) % 256)).set (a + 3) ((v >>> 24) % 256))[a + 3]? =
        some ((v >>> 24) % 256) := by
      rw [getElem?_set_self (by rw [List.length_set, List.length_set, List.length_set]; omega)]
    unfold readU32
    simp only [h0, h1, h2, h3]
    rw [u32_bytes_roundtrip v hv]
  · rw [if_neg hb] at h
    exact Option.noConfusion h

/--
C5.  For every 32-bit value and every machine whose stack slot `esp - 4`
lies inside memory, `push` followed by `pop` succeeds, returns the pushed
value, and restores `esp` to its original value.
-/
theorem push_pop_roundtrip (m : X86) (v : Nat) (hv : v < U32MOD)
    (hesp : m.regs.esp < U32MOD) (hmem : wsub32 m.regs.esp 4 + 3 < m.mem.length) :
    ∃ m1 m2, m.push v = some m1 ∧ m1.pop = some (v, m2) ∧ m2.regs.esp = m.regs.esp := by
  obtain ⟨mem2, hw⟩ : ∃ mem2, writeU32 m.mem (wsub32 m.regs.esp 4) v = some mem2 := by
    unfold writeU32
    rw [if_pos hmem]
    exact ⟨_, rfl⟩
  have hread : readU32 mem2 (wsub32 m.regs.esp 4) = some v := readU32_writeU32 hv hw
  refine ⟨_, _, push_eq hw, pop_eq hread, ?_⟩
  show wadd32 (wsub32 m.regs.esp 4) 4 = m.regs.esp
  simp only [wadd32, wsub32, U32MOD] at hesp ⊢
  omega

/-- C5 witness machine: eight bytes of stack, `esp = 8`. -/
def M5 : X86 :=
  { mem := [0, 0, 0, 0, 0, 0, 0, 0], regs := { regs0 with esp := 8 }, base := 0, imports := [] }

/-- C5 witness: the round trip at `v = 0x12345678` on `M5`. -/
theorem push_pop_roundtrip_witness :
    ((305419896 : Nat) < U32MOD ∧ M5.regs.esp < U32MOD ∧
      wsub32 M5.regs.esp 4 + 3 < M5.mem.length) ∧
    (∃ m1 m2, M5.push 305419896 = some m1 ∧ m1.pop = some (305419896, m2) ∧
      m2.regs.esp = M5.regs.esp) :=
  ⟨⟨by decide, by decide, by decide⟩,
    push_pop_roundtrip M5 305419896 (by decide) (by decide) (by decide)⟩

/-- C6 concrete machine: `eax = 10`, `ecx = 10`. -/
def M6 : X86 :=
  { mem := [], regs := { regs0 with eax := 10, ecx := 10 }, base := 0, imports := [] }

/-- The C6 operand `[eax + ecx*2]`. -/
def OP6 : MemOperand := ⟨some .eax, some .ecx, 2, 0⟩

/--
C6.  The claim requires `addr` to support scales 1, 2, 4 and 8, returning
`base + index*scale + disp32`; on a scale-2 operand the code instead hits
the `assert!(instr.memory_index_scale() == 1)` (a `// TODO` line) and
aborts, computing no address — while the spec formula gives
`10 + 10*2 + 0 = 30`.
-/
theorem addr_scale2_unsupported :
    X86.addr M6 OP6 = none ∧ addrSpec M6.regs OP6 = some 30 := ⟨rfl, rfl⟩

/-! ### C7: stack clamping and initial esp/ebp -/

lemma allocAux_size {size : Nat} {desc : String} {endp : Nat} {l : List Mapping}
    {nm : Mapping} {l2 : List Mapping} (h : allocAux size desc endp l = some (nm, l2)) :
    nm.size = size := by
  induction l generalizing endp l2 with
  | nil => exact Option.noConfusion h
  | cons mhd rest ih =>
    simp only [allocAux] at h
    by_cases hsp : size < wsub32 mhd.addr endp
    · rw [if_pos hsp] at h
      obtain ⟨rfl, rfl⟩ := Prod.mk.injEq .. ▸ Option.some.inj h
      rfl
    · rw [if_neg hsp] at h
      cases hrec : allocAux size desc (wadd32 (wadd32 mhd.addr mhd.size) 4095 &&& 4294963200)
          rest with
      | none => simp only [hrec] at h; exact Option.noConfusion h
      | some p =>
        obtain ⟨nm2, rest2⟩ := p
        simp only [hrec] at h
        obtain ⟨rfl, rfl⟩ := Prod.mk.injEq .. ▸ Option.some.inj h
        exact ih hrec

/--
C7.  For every load whose stack-setup phase completes: if the PE's
`size_of_stack_reserve` exceeds 1 MiB the allocated stack is 32 KiB,
otherwise the requested size is used; and afterwards `esp` and `ebp` both
equal `stack.addr + stack.size - 4` (32-bit wrapping arithmetic).
-/
theorem loadStack_stack_spec (reserve : Nat) (l : List Mapping) (stack : Mapping)
    (l2 : List Mapping) (espv ebpv : Nat)
    (h : loadStack reserve l = some (stack, l2, espv, ebpv)) :
    stack.size = (if 1048576 < reserve then 32768 else reserve) ∧
    espv = wsub32 (wadd32 stack.addr stack.size) 4 ∧ ebpv = espv := by
  unfold loadStack at h
  cases ha : alloc l (if 1048576 < reserve then 32768 else reserve) ("stack") with
  | none => simp only [ha] at h; exact Option.noConfusion h
  | some p =>
    obtain ⟨stack0, l0⟩ := p
    simp only [ha, Option.some.injEq, Prod.mk.injEq] at h
    obtain ⟨rfl, rfl, rfl, rfl⟩ := h
    exact ⟨allocAux_size ha, rfl, rfl⟩

/-- C7 witness mapping list: a null-page mapping and a code mapping with a
gap between them. -/
def L7 : List Mapping := [⟨0, 4096, "n"⟩, ⟨4194304, 4096, "c"⟩]

/-- C7 witness: a 64 KiB reserve (below the 1 MiB clamp) on `L7`; the stack
lands at 4096 and `esp = ebp = 4096 + 65536 - 4`. -/
theorem loadStack_stack_spec_witness :
    loadStack 65536 L7 = some (⟨4096, 65536, "stack"⟩,
      [⟨0, 4096, "n"⟩, ⟨4096, 65536, "stack"⟩, ⟨4194304, 4096, "c"⟩], 69628, 69628) ∧
    ((Mapping.mk 4096 65536 "stack").size = (if 1048576 < 65536 then 32768 else 65536) ∧
      (69628 : Nat) = wsub32 (wadd32 (Mapping.mk 4096 65536 "stack").addr
        (Mapping.mk 4096 65536 "stack").size) 4 ∧ (69628 : Nat) = 69628) :=
  ⟨rfl, loadStack_stack_spec 65536 L7 ⟨4096, 65536, "stack"⟩
    [⟨0, 4096, "n"⟩, ⟨4096, 65536, "stack"⟩, ⟨4194304, 4096, "c"⟩] 69628 69628 rfl⟩

/-- C4 failing input: a mapping list satisfying the sorted/non-overlap
invariant in which the second mapping's page-rounded end (0x11000) lies past
the third mapping's start (0x10900). -/
def L4 : List Mapping := [⟨0, 65536, "null"⟩, ⟨65536, 2048, "a"⟩, ⟨67840, 256, "b"⟩]

/-- The list `alloc` produces on `L4`: the new mapping is inserted out of
order and overlaps its successor in address order. -/
def L4out : List Mapping :=
  [⟨0, 65536, "null"⟩, ⟨65536, 2048, "a"⟩, ⟨69632, 32768, "stack"⟩, ⟨67840, 256, "b"⟩]

/--
C4.  On the invariant-satisfying list `L4`, `alloc`'s `mapping.addr - end`
subtraction underflows (wrapping in the release profile), so the gap test
passes and the mapping `{addr := 0x11000, size := 0x8000}` is inserted
before `{addr := 0x10900, ...}`: the resulting list is no longer sorted nor
non-overlapping, contradicting the claimed invariant (in the debug profile
the same step aborts on the underflow instead of completing).
-/
theorem alloc_breaks_mapping_invariant :
    mappingsOk L4 = true ∧
    alloc L4 32768 ("stack") = some (⟨69632, 32768, "stack"⟩, L4out) ∧
    mappingsOk L4out = false :=
  ⟨rfl, rfl, rfl⟩

end Retrowin32
